import Mathlib

/-!
Verification development for the block-extent writing layer of
`system_update_engine` (`src/extent_writer.h`).

The embedding models the three classes of the source:

* `ExtentWriter` (abstract base): the virtual operations become a record of
  operations `ExtentWriterImpl` over an implementation state type `σ`; the
  base-class field `end_called_` and the non-virtual `End()` wrapper become
  `ObjState` and `callEnd`.
* `DirectExtentWriter`: state `DirectState`, operations `directWriter`.
  The body of `DirectExtentWriter::Write` lives in `extent_writer.cc`, which
  is not part of this fragment, so that single function is modelled from the
  spec (see `directWriteLoop`).
* `ZeroPadExtentWriter`: state `ZeroPadState`, operations `zeroPadWriter`,
  parametric in the wrapped writer.

Machine integers: block sizes, counts and offsets are modelled as `Nat`.
The C++ `%=` with a zero divisor is undefined behaviour; fallible spots like
that are embedded with `Option` (`none` = undefined behaviour), via `cppMod`.
The file descriptor is modelled as the trace of positioned writes issued to
it: a list of (byte offset, data) pairs, appended in program order.
-/

namespace ExtentWriterModel

/-- An extent: a contiguous run of fixed-size blocks on the target, given by
a starting block index and a block count (`update_metadata.pb`). -/
structure Extent where
  start_block : Nat
  num_blocks : Nat
deriving DecidableEq, Repr

/-- Modelled from the spec: the designated sentinel starting-block value that
denotes a hole extent ("skip these blocks"). The constant itself is defined
outside this fragment; it is the maximal 64-bit value. -/
def kSparseHole : Nat := 18446744073709551615

/-- The virtual operations of the abstract base class `ExtentWriter`, over an
implementation state type `σ`. The file-descriptor argument has type `φ`.
Each operation returns `none` for undefined behaviour, or `some (ok, s)` with
the C++ `bool` result and the updated object state. -/
structure ExtentWriterImpl (φ σ : Type) where
  initOp : σ → φ → List Extent → Nat → Option (Bool × σ)
  writeOp : σ → List Nat → Option (Bool × σ)
  endImplOp : σ → Option (Bool × σ)

/-- The state of a full `ExtentWriter` object: the derived-class state `core`
plus the private base-class flag `end_called_`. The constructor of the base
class initialises `end_called_` to `false`. -/
structure ObjState (σ : Type) where
  core : σ
  end_called : Bool
deriving DecidableEq, Repr

/-- The virtual `Init`, dispatched on an object: only the derived state can
change, the base-class flag is untouched. -/
def callInit {φ σ : Type} (w : ExtentWriterImpl φ σ) (s : ObjState σ)
    (fd : φ) (ex : List Extent) (bs : Nat) : Option (Bool × ObjState σ) :=
  (w.initOp s.core fd ex bs).map (fun r => (r.1, ⟨r.2, s.end_called⟩))

/-- The virtual `Write`, dispatched on an object: only the derived state can
change, the base-class flag is untouched. -/
def callWrite {φ σ : Type} (w : ExtentWriterImpl φ σ) (s : ObjState σ)
    (bytes : List Nat) : Option (Bool × ObjState σ) :=
  (w.writeOp s.core bytes).map (fun r => (r.1, ⟨r.2, s.end_called⟩))

/-- The non-virtual `ExtentWriter::End`: sets `end_called_ = true` and then
delegates to the virtual `EndImpl`. -/
def callEnd {φ σ : Type} (w : ExtentWriterImpl φ σ) (s : ObjState σ) :
    Option (Bool × ObjState σ) :=
  (w.endImplOp s.core).map (fun r => (r.1, ⟨r.2, true⟩))

/-- The base-class destructor `~ExtentWriter` emits
`LOG_IF(ERROR, !end_called_)`: an error diagnostic exactly when the object is
destroyed with `end_called_` still unset. -/
def destructorLogsError {σ : Type} (s : ObjState σ) : Bool :=
  !s.end_called

/-- C++ `%` on unsigned integers, which is undefined when the divisor is
zero. -/
def cppMod (a b : Nat) : Option Nat :=
  if b = 0 then none else some (a % b)

/-! ## DirectExtentWriter -/

/-- The member state of `DirectExtentWriter`: the file descriptor (modelled
as the trace of positioned writes issued so far), `block_size_`,
`extent_bytes_written_`, `extents_` and `next_extent_index_`. -/
structure DirectState where
  fd : List (Nat × List Nat)
  block_size : Nat
  extent_bytes_written : Nat
  extents : List Extent
  next_extent_index : Nat
deriving DecidableEq, Repr

/-- The `DirectExtentWriter` constructor: null descriptor (empty trace),
`block_size_ = 0`, cursor at extent 0 with 0 bytes written. -/
def directCtor : DirectState := ⟨[], 0, 0, [], 0⟩

/-- Modelled from the spec: the chunking loop of `DirectExtentWriter::Write`
(its body is in `extent_writer.cc`, not part of this fragment; spec §4.2).
While bytes remain: fail if the extent list is exhausted; if the current
extent has no room left, advance to the next extent and reset the in-extent
cursor; otherwise take `chunk = min count remaining`, issue a positioned
write at `start_block * block_size + extent_bytes_written` unless the extent
is a hole, and advance. Returns the `bool` result, the final
`next_extent_index_` and `extent_bytes_written_`, and the list of positioned
writes issued, in order. -/
def directWriteLoop (bs : Nat) (extents : List Extent) (idx ebw : Nat)
    (bytes : List Nat) : Bool × Nat × Nat × List (Nat × List Nat) :=
  match bytes with
  | [] => (true, idx, ebw, [])
  | b :: rest =>
    if hidx : extents.length ≤ idx then (false, idx, ebw, [])
    else
      if hrem : extents[idx].num_blocks * bs - ebw = 0 then
        directWriteLoop bs extents (idx + 1) 0 (b :: rest)
      else
        let chunk := min (b :: rest).length
          (extents[idx].num_blocks * bs - ebw)
        let out := directWriteLoop bs extents idx (ebw + chunk)
          ((b :: rest).drop chunk)
        (out.1, out.2.1, out.2.2.1,
          if extents[idx].start_block = kSparseHole then out.2.2.2
          else (extents[idx].start_block * bs + ebw,
            (b :: rest).take chunk) :: out.2.2.2)
termination_by (extents.length - idx, bytes.length)
decreasing_by
  · exact Prod.Lex.left _ _ (by omega)
  · have h1 : 1 ≤ extents[idx].num_blocks * bs - ebw := by omega
    exact Prod.Lex.right (extents.length - idx)
      (by simp only [List.length_drop, List.length_cons]; omega)

/-- Modelled from the spec: `DirectExtentWriter::Write` as a state
transformer, running the chunking loop and appending the issued positioned
writes to the descriptor trace. -/
def directWrite (s : DirectState) (bytes : List Nat) : Bool × DirectState :=
  let r := directWriteLoop s.block_size s.extents s.next_extent_index
    s.extent_bytes_written bytes
  (r.1, { s with next_extent_index := r.2.1, extent_bytes_written := r.2.2.1,
                 fd := s.fd ++ r.2.2.2 })

/-- The `DirectExtentWriter` operations. `Init` stores `fd_`, `block_size_`
and `extents_` and returns `true`; `EndImpl` returns `true` and changes
nothing. -/
def directWriter : ExtentWriterImpl (List (Nat × List Nat)) DirectState where
  initOp s fd ex bs := some (true, { s with fd := fd, block_size := bs,
                                            extents := ex })
  writeOp s bytes := some (directWrite s bytes)
  endImplOp s := some (true, s)

/-- The state of a freshly constructed and initialised `DirectExtentWriter`:
the constructor zeroes the cursor and `Init` records the parameters. -/
def initialDirect (fd : List (Nat × List Nat)) (ex : List Extent)
    (bs : Nat) : DirectState :=
  ⟨fd, bs, 0, ex, 0⟩

/-! ## ZeroPadExtentWriter -/

/-- The member state of `ZeroPadExtentWriter`: the wrapped writer object
(whose own base-class flag it can set by calling `End` on it), `block_size_`
and `bytes_written_mod_block_size_`. -/
structure ZeroPadState (σ : Type) where
  underlying : ObjState σ
  block_size : Nat
  bytes_written_mod_block_size : Nat
deriving DecidableEq, Repr

/-- The `ZeroPadExtentWriter` constructor: records the wrapped writer and
zeroes `block_size_` and `bytes_written_mod_block_size_`. -/
def zeroPadCtor {σ : Type} (u : ObjState σ) : ZeroPadState σ :=
  ⟨u, 0, 0⟩

/-- `ZeroPadExtentWriter::EndImpl`: if the modulo counter is non-zero, issue
one write of `block_size_ - bytes_written_mod_block_size_` zero bytes through
the wrapped writer's `Write` and return `false` if it fails; then call the
wrapped writer's full `End` (which sets its `end_called_` flag) and return
its result. -/
def zeroPadEndImpl {φ σ : Type} (w : ExtentWriterImpl φ σ)
    (s : ZeroPadState σ) : Option (Bool × ZeroPadState σ) :=
  if s.bytes_written_mod_block_size ≠ 0 then
    match w.writeOp s.underlying.core
        (List.replicate (s.block_size - s.bytes_written_mod_block_size) 0) with
    | none => none
    | some (false, c) =>
      some (false, { s with underlying := ⟨c, s.underlying.end_called⟩ })
    | some (true, c) =>
      match w.endImplOp c with
      | none => none
      | some (b, c2) => some (b, { s with underlying := ⟨c2, true⟩ })
  else
    match w.endImplOp s.underlying.core with
    | none => none
    | some (b, c2) => some (b, { s with underlying := ⟨c2, true⟩ })

/-- The `ZeroPadExtentWriter` operations over a wrapped writer `w`. `Init`
stores `block_size_` and forwards to the wrapped `Init`; `Write` forwards
verbatim and, only on success, folds the count into the modulo counter
(`+=` then `%=`, the latter undefined for a zero `block_size_`); `EndImpl`
is `zeroPadEndImpl`. -/
def zeroPadWriter {φ σ : Type} (w : ExtentWriterImpl φ σ) :
    ExtentWriterImpl φ (ZeroPadState σ) where
  initOp s fd ex bs :=
    (w.initOp s.underlying.core fd ex bs).map
      (fun r => (r.1, { s with block_size := bs,
                               underlying := ⟨r.2, s.underlying.end_called⟩ }))
  writeOp s bytes :=
    match w.writeOp s.underlying.core bytes with
    | none => none
    | some (false, c) =>
      some (false, { s with underlying := ⟨c, s.underlying.end_called⟩ })
    | some (true, c) =>
      match cppMod (s.bytes_written_mod_block_size + bytes.length)
          s.block_size with
      | none => none
      | some m =>
        some (true, { s with underlying := ⟨c, s.underlying.end_called⟩,
                             bytes_written_mod_block_size := m })
  endImplOp s := zeroPadEndImpl w s

/-! ## Driving a session -/

/-- Runs a list of `Write` calls against a writer, collecting the `bool`
result of each call; `none` as soon as one call runs into undefined
behaviour. -/
def runCalls {φ σ : Type} (w : ExtentWriterImpl φ σ) (s : σ) :
    List (List Nat) → Option (List Bool × σ)
  | [] => some ([], s)
  | b :: rest =>
    match w.writeOp s b with
    | none => none
    | some (ok, s') =>
      match runCalls w s' rest with
      | none => none
      | some (rs, s'') => some (ok :: rs, s'')

/-- Total number of bytes successfully written: the summed lengths of the
calls whose result was `true`. -/
def succBytes : List (List Nat) → List Bool → Nat
  | [], _ => 0
  | _, [] => 0
  | b :: calls, r :: rs => (if r then b.length else 0) + succBytes calls rs

/-- One whole caller session against a writer object: `Init`, a list of
`Write` calls, then `End`, collecting every `bool` result the caller sees
and the final object state. -/
def runSession {φ σ : Type} (w : ExtentWriterImpl φ σ) (s : ObjState σ)
    (fd : φ) (ex : List Extent) (bs : Nat) (calls : List (List Nat)) :
    Option (List Bool × ObjState σ) :=
  match callInit w s fd ex bs with
  | none => none
  | some (b0, s1) =>
    match runCalls w s1.core calls with
    | none => none
    | some (rsw, s2) =>
      match callEnd w ⟨s2, s1.end_called⟩ with
      | none => none
      | some (bE, s3) => some (b0 :: rsw ++ [bE], s3)

/-- Looks up the byte a trace of positioned writes leaves at absolute byte
offset `p`: the value of the latest write covering `p`, if any. The trace is
in program order (earliest first), so later entries win. -/
def lookupTrace : List (Nat × List Nat) → Nat → Option Nat
  | [], _ => none
  | (off, data) :: rest, p =>
    (lookupTrace rest p).or
      (if off ≤ p ∧ p < off + data.length then
        some (data.getD (p - off) 0)
      else none)

/-- Total number of blocks across an extent list. -/
def totalBlocks (exs : List Extent) : Nat :=
  (exs.map Extent.num_blocks).sum

/-- Number of blocks in the first `idx` extents. -/
def prefixBlocks (exs : List Extent) (idx : Nat) : Nat :=
  ((exs.take idx).map Extent.num_blocks).sum

/-- Representation invariant of the Direct Writer cursor: the pair
`(next_extent_index_, extent_bytes_written_)` represents a logical position
of `c` bytes into the stream. -/
def ReprG (exs : List Extent) (bs idx ebw c : Nat) : Prop :=
  idx ≤ exs.length ∧
  c = prefixBlocks exs idx * bs + ebw ∧
  (∀ h : idx < exs.length, ebw ≤ exs[idx].num_blocks * bs) ∧
  (idx = exs.length → ebw = 0)

/-- The extent list of the spec's round-trip placement scenario. -/
def exs0 : List Extent := [⟨5, 2⟩, ⟨10, 1⟩]

/-- The expected target content contributed by writing `bytes` starting at
logical stream position `c` through the scenario `exs0` with block size 4096:
logical byte `n < 8192` lives at target offset `20480 + n`, logical byte
`8192 ≤ n < 12288` at `40960 + (n - 8192)`, and nothing lives anywhere
else. -/
def physLookup (c : Nat) (bytes : List Nat) (p : Nat) : Option Nat :=
  if 20480 ≤ p ∧ p < 28672 ∧ c ≤ p - 20480 ∧ p - 20480 < c + bytes.length then
    some (bytes.getD (p - 20480 - c) 0)
  else if 40960 ≤ p ∧ p < 45056 ∧ c ≤ p - 40960 + 8192 ∧
      p - 40960 + 8192 < c + bytes.length then
    some (bytes.getD (p - 40960 + 8192 - c) 0)
  else none

/-- Modelled from the spec: "synthesize a zero-filled buffer of length
`block_size - written_mod` and forward it through the wrapped writer's
`write`; fail the whole finalize if that padding write fails. Then forward
`finalize` to the wrapped writer and return its result." Exactly one
padding write of `k` zero bytes, then delegation of the full `End`. -/
def padThenDelegate {φ σ : Type} (w : ExtentWriterImpl φ σ)
    (s : ZeroPadState σ) (k : Nat) : Option (Bool × ZeroPadState σ) :=
  match w.writeOp s.underlying.core (List.replicate k 0) with
  | none => none
  | some (false, c) =>
    some (false, { s with underlying := ⟨c, s.underlying.end_called⟩ })
  | some (true, c) =>
    match w.endImplOp c with
    | none => none
    | some (b, c2) => some (b, { s with underlying := ⟨c2, true⟩ })

/-- Modelled from the spec: finalize with no padding at all — the wrapped
writer's full `End` is forwarded and nothing else is done. -/
def delegateOnly {φ σ : Type} (w : ExtentWriterImpl φ σ)
    (s : ZeroPadState σ) : Option (Bool × ZeroPadState σ) :=
  match w.endImplOp s.underlying.core with
  | none => none
  | some (b, c2) => some (b, { s with underlying := ⟨c2, true⟩ })

/-- A concrete wrapped writer used by witnesses: it records every call it
receives — `some n` for a `Write` of `n` bytes, `none` for `EndImpl` — and
always succeeds. -/
def recWriter : ExtentWriterImpl Unit (List (Option Nat)) where
  initOp s _ _ _ := some (true, s)
  writeOp s b := some (true, s ++ [some b.length])
  endImplOp s := some (true, s ++ [none])

/-- Simulation relation between a doubly decorated session state and a
singly decorated one over the same wrapped writer: equal block sizes, equal
modulo counters on every level, equal wrapped-writer object, and the
reachability facts that a zero block size forces a zero counter and a
non-zero one bounds the counter. -/
def ZPRel {σ : Type} (d : ZeroPadState (ZeroPadState σ))
    (s : ZeroPadState σ) : Prop :=
  d.block_size = s.block_size ∧
  d.underlying.core.block_size = s.block_size ∧
  d.bytes_written_mod_block_size = s.bytes_written_mod_block_size ∧
  d.underlying.core.bytes_written_mod_block_size =
    s.bytes_written_mod_block_size ∧
  d.underlying.core.underlying = s.underlying ∧
  (s.block_size = 0 → s.bytes_written_mod_block_size = 0) ∧
  (s.block_size ≠ 0 → s.bytes_written_mod_block_size < s.block_size)

/-! ## Supporting lemmas -/

lemma zeroPadEndImpl_eq {φ σ : Type} (w : ExtentWriterImpl φ σ)
    (s : ZeroPadState σ) :
    zeroPadEndImpl w s =
      if s.bytes_written_mod_block_size ≠ 0 then
        padThenDelegate w s
          (s.block_size - s.bytes_written_mod_block_size)
      else delegateOnly w s := rfl

/-- Shape of the decorator's `Write` when the block size is non-zero: the
call is forwarded verbatim; only on success the modulo counter moves. -/
lemma zeroPad_write_shape {φ σ : Type} (w : ExtentWriterImpl φ σ)
    (s : ZeroPadState σ) (bytes : List Nat) (h0 : s.block_size ≠ 0) :
    (zeroPadWriter w).writeOp s bytes =
      match w.writeOp s.underlying.core bytes with
      | none => none
      | some (false, c) =>
        some (false, { s with underlying := ⟨c, s.underlying.end_called⟩ })
      | some (true, c) =>
        some (true,
          { s with
            underlying := ⟨c, s.underlying.end_called⟩,
            bytes_written_mod_block_size :=
              (s.bytes_written_mod_block_size + bytes.length) %
                s.block_size }) := by
  show (match w.writeOp s.underlying.core bytes with
    | none => none
    | some (false, c) =>
      some (false, { s with underlying := ⟨c, s.underlying.end_called⟩ })
    | some (true, c) =>
      match cppMod (s.bytes_written_mod_block_size + bytes.length)
          s.block_size with
      | none => none
      | some m =>
        some (true,
          { s with
            underlying := ⟨c, s.underlying.end_called⟩,
            bytes_written_mod_block_size := m })) = _
  cases hw : w.writeOp s.underlying.core bytes with
  | none => rfl
  | some r =>
    obtain ⟨ok, c⟩ := r
    cases ok
    · rfl
    · simp [cppMod, h0]

/-- Running `Write` calls through a Zero-Pad decorator keeps the block size
and the wrapped writer's `end_called_` flag, and leaves the modulo counter
at the successfully written byte total modulo the block size. -/
lemma runCalls_zeroPad_counter {φ σ : Type} (w : ExtentWriterImpl φ σ) :
    ∀ (calls : List (List Nat)) (s : ZeroPadState σ) (rs : List Bool)
      (s' : ZeroPadState σ),
      s.bytes_written_mod_block_size < s.block_size →
      runCalls (zeroPadWriter w) s calls = some (rs, s') →
      s'.block_size = s.block_size ∧
      s'.bytes_written_mod_block_size =
        (s.bytes_written_mod_block_size + succBytes calls rs) %
          s.block_size ∧
      s'.underlying.end_called = s.underlying.end_called := by
  intro calls
  induction calls with
  | nil =>
    intro s rs s' hlt h
    simp only [runCalls, Option.some.injEq, Prod.mk.injEq] at h
    obtain ⟨rfl, rfl⟩ := h
    simp [succBytes, Nat.mod_eq_of_lt hlt]
  | cons b rest ih =>
    intro s rs s' hlt h
    have hbs : s.block_size ≠ 0 := by omega
    simp only [runCalls] at h
    rw [zeroPad_write_shape w s b hbs] at h
    cases hw : w.writeOp s.underlying.core b with
    | none => rw [hw] at h; exact absurd h (by simp)
    | some r =>
      obtain ⟨ok, c⟩ := r
      rw [hw] at h
      cases ok with
      | false =>
        dsimp only at h
        cases hr : runCalls (zeroPadWriter w)
            { s with underlying := ⟨c, s.underlying.end_called⟩ } rest with
        | none => rw [hr] at h; exact absurd h (by simp)
        | some out =>
          obtain ⟨rs2, s2⟩ := out
          rw [hr] at h
          simp only [Option.some.injEq, Prod.mk.injEq] at h
          obtain ⟨rfl, rfl⟩ := h
          have hmain := ih _ rs2 s2 (by simpa using hlt) hr
          refine ⟨hmain.1, ?_, hmain.2.2⟩
          simpa [succBytes] using hmain.2.1
      | true =>
        dsimp only at h
        cases hr : runCalls (zeroPadWriter w)
            { s with underlying := ⟨c, s.underlying.end_called⟩,
                     bytes_written_mod_block_size :=
                       (s.bytes_written_mod_block_size + b.length) %
                         s.block_size } rest with
        | none => rw [hr] at h; exact absurd h (by simp)
        | some out =>
          obtain ⟨rs2, s2⟩ := out
          rw [hr] at h
          simp only [Option.some.injEq, Prod.mk.injEq] at h
          obtain ⟨rfl, rfl⟩ := h
          have hmain := ih _ rs2 s2
            (by simpa using Nat.mod_lt _ (by omega)) hr
          refine ⟨hmain.1, ?_, hmain.2.2⟩
          have h2 := hmain.2.1
          simp only at h2
          rw [h2, Nat.mod_add_mod, succBytes]
          simp [Nat.add_assoc]

/-! ## Direct Writer loop lemmas -/

lemma prefixBlocks_zero (exs : List Extent) : prefixBlocks exs 0 = 0 := rfl

lemma prefixBlocks_succ (exs : List Extent) (idx : Nat)
    (h : idx < exs.length) :
    prefixBlocks exs (idx + 1) =
      prefixBlocks exs idx + exs[idx].num_blocks := by
  have hmap : idx < (exs.map Extent.num_blocks).length := by simpa using h
  unfold prefixBlocks
  rw [List.map_take, List.map_take, List.sum_take_succ _ _ hmap,
    List.getElem_map]

lemma prefixBlocks_le (exs : List Extent) (idx : Nat) :
    prefixBlocks exs idx ≤ totalBlocks exs := by
  unfold prefixBlocks totalBlocks
  conv_rhs => rw [← List.take_append_drop idx exs]
  rw [List.map_append, List.sum_append]
  exact Nat.le_add_right _ _

lemma prefixBlocks_length (exs : List Extent) :
    prefixBlocks exs exs.length = totalBlocks exs := by
  unfold prefixBlocks totalBlocks
  rw [List.take_length]

/-- The logical position represented by any valid cursor never exceeds the
total byte capacity of the extent list. -/
lemma ReprG_le (exs : List Extent) (bs idx ebw c : Nat)
    (h : ReprG exs bs idx ebw c) : c ≤ totalBlocks exs * bs := by
  obtain ⟨hle, hc, hbound, hend⟩ := h
  rcases Nat.lt_or_ge idx exs.length with hlt | hge
  · have hb := hbound hlt
    have hple : prefixBlocks exs (idx + 1) ≤ totalBlocks exs :=
      prefixBlocks_le exs (idx + 1)
    have hmul : prefixBlocks exs (idx + 1) * bs ≤ totalBlocks exs * bs :=
      Nat.mul_le_mul_right bs hple
    rw [prefixBlocks_succ exs idx hlt, Nat.add_mul] at hmul
    omega
  · have hidxeq : idx = exs.length := le_antisymm hle hge
    have hebw := hend hidxeq
    rw [hidxeq, prefixBlocks_length] at hc
    omega

lemma directWriteLoop_nil (bs : Nat) (exs : List Extent) (idx ebw : Nat) :
    directWriteLoop bs exs idx ebw [] = (true, idx, ebw, []) := by
  rw [directWriteLoop.eq_def]

lemma directWriteLoop_exhausted (bs : Nat) (exs : List Extent)
    (idx ebw b : Nat) (rest : List Nat) (hidx : exs.length ≤ idx) :
    directWriteLoop bs exs idx ebw (b :: rest) = (false, idx, ebw, []) := by
  rw [directWriteLoop.eq_def]
  exact dif_pos hidx

lemma directWriteLoop_advance (bs : Nat) (exs : List Extent)
    (idx ebw b : Nat) (rest : List Nat) (hidx : idx < exs.length)
    (hrem : exs[idx].num_blocks * bs - ebw = 0) :
    directWriteLoop bs exs idx ebw (b :: rest) =
      directWriteLoop bs exs (idx + 1) 0 (b :: rest) := by
  conv_lhs => rw [directWriteLoop.eq_def]
  dsimp only
  rw [dif_neg (by omega)]
  exact dif_pos hrem

lemma directWriteLoop_chunk (bs : Nat) (exs : List Extent)
    (idx ebw b : Nat) (rest : List Nat) (hidx : idx < exs.length)
    (hrem : exs[idx].num_blocks * bs - ebw ≠ 0) :
    directWriteLoop bs exs idx ebw (b :: rest) =
      ((directWriteLoop bs exs idx
          (ebw + min (b :: rest).length (exs[idx].num_blocks * bs - ebw))
          ((b :: rest).drop
            (min (b :: rest).length
              (exs[idx].num_blocks * bs - ebw)))).1,
        (directWriteLoop bs exs idx
          (ebw + min (b :: rest).length (exs[idx].num_blocks * bs - ebw))
          ((b :: rest).drop
            (min (b :: rest).length
              (exs[idx].num_blocks * bs - ebw)))).2.1,
        (directWriteLoop bs exs idx
          (ebw + min (b :: rest).length (exs[idx].num_blocks * bs - ebw))
          ((b :: rest).drop
            (min (b :: rest).length
              (exs[idx].num_blocks * bs - ebw)))).2.2.1,
        if exs[idx].start_block = kSparseHole then
          (directWriteLoop bs exs idx
            (ebw + min (b :: rest).length
              (exs[idx].num_blocks * bs - ebw))
            ((b :: rest).drop
              (min (b :: rest).length
                (exs[idx].num_blocks * bs - ebw)))).2.2.2
        else
          (exs[idx].start_block * bs + ebw,
            (b :: rest).take (min (b :: rest).length
              (exs[idx].num_blocks * bs - ebw))) ::
          (directWriteLoop bs exs idx
            (ebw + min (b :: rest).length
              (exs[idx].num_blocks * bs - ebw))
            ((b :: rest).drop
              (min (b :: rest).length
                (exs[idx].num_blocks * bs - ebw)))).2.2.2) := by
  conv_lhs => rw [directWriteLoop.eq_def]
  dsimp only
  rw [dif_neg (by omega), dif_neg hrem]

/-- If the caller stays within capacity, the loop succeeds and the cursor
advances by exactly the submitted byte count. -/
lemma directWriteLoop_ok (bs : Nat) (exs : List Extent) :
    ∀ (idx ebw : Nat) (bytes : List Nat), ∀ c : Nat,
      ReprG exs bs idx ebw c →
      c + bytes.length ≤ totalBlocks exs * bs →
      (directWriteLoop bs exs idx ebw bytes).1 = true ∧
      ReprG exs bs (directWriteLoop bs exs idx ebw bytes).2.1
        (directWriteLoop bs exs idx ebw bytes).2.2.1
        (c + bytes.length) := by
  intro idx ebw bytes
  induction idx, ebw, bytes using directWriteLoop.induct bs exs with
  | case1 idx ebw =>
    intro c hrep hcap
    rw [directWriteLoop_nil]
    exact ⟨rfl, by simpa using hrep⟩
  | case2 idx ebw b rest hidx =>
    intro c hrep hcap
    exfalso
    obtain ⟨hle, hc, -, hend⟩ := hrep
    have hidxeq : idx = exs.length := le_antisymm hle hidx
    have hebw := hend hidxeq
    rw [hidxeq, prefixBlocks_length] at hc
    simp only [List.length_cons] at hcap
    omega
  | case3 idx ebw b rest hidx hrem ih =>
    intro c hrep hcap
    have hlt : idx < exs.length := by omega
    obtain ⟨hle, hc, hbound, hend⟩ := hrep
    have hb := hbound hlt
    have hrep2 : ReprG exs bs (idx + 1) 0 c := by
      refine ⟨by omega, ?_, fun h => Nat.zero_le _, fun _ => rfl⟩
      rw [prefixBlocks_succ exs idx hlt, Nat.add_mul]
      omega
    rw [directWriteLoop_advance bs exs idx ebw b rest hlt hrem]
    exact ih c hrep2 hcap
  | case4 idx ebw b rest hidx hrem chunk ih =>
    intro c hrep hcap
    have hlt : idx < exs.length := by omega
    obtain ⟨hle, hc, hbound, hend⟩ := hrep
    have hb := hbound hlt
    have hminl : chunk ≤ (b :: rest).length := Nat.min_le_left _ _
    have hminr : chunk ≤ exs[idx].num_blocks * bs - ebw :=
      Nat.min_le_right _ _
    have hdrop : (List.drop chunk (b :: rest)).length =
        (b :: rest).length - chunk := List.length_drop _ _
    have hrep2 : ReprG exs bs idx (ebw + chunk) (c + chunk) :=
      ⟨hle, by omega, fun h => by omega, fun heq => absurd heq (by omega)⟩
    have hcap2 : c + chunk + (List.drop chunk (b :: rest)).length ≤
        totalBlocks exs * bs := by omega
    have hmain := ih (c + chunk) hrep2 hcap2
    have harith : c + chunk + (List.drop chunk (b :: rest)).length =
        c + (b :: rest).length := by omega
    rw [harith] at hmain
    rw [directWriteLoop_chunk bs exs idx ebw b rest hlt hrem]
    exact hmain

/-- If the caller exceeds capacity, the loop fails. -/
lemma directWriteLoop_exceeds (bs : Nat) (exs : List Extent) :
    ∀ (idx ebw : Nat) (bytes : List Nat), ∀ c : Nat,
      ReprG exs bs idx ebw c →
      totalBlocks exs * bs < c + bytes.length →
      (directWriteLoop bs exs idx ebw bytes).1 = false := by
  intro idx ebw bytes
  induction idx, ebw, bytes using directWriteLoop.induct bs exs with
  | case1 idx ebw =>
    intro c hrep hcap
    exfalso
    have := ReprG_le exs bs idx ebw c hrep
    simp only [List.length_nil] at hcap
    omega
  | case2 idx ebw b rest hidx =>
    intro c hrep hcap
    rw [directWriteLoop_exhausted bs exs idx ebw b rest hidx]
  | case3 idx ebw b rest hidx hrem ih =>
    intro c hrep hcap
    have hlt : idx < exs.length := by omega
    obtain ⟨hle, hc, hbound, hend⟩ := hrep
    have hb := hbound hlt
    have hrep2 : ReprG exs bs (idx + 1) 0 c := by
      refine ⟨by omega, ?_, fun h => Nat.zero_le _, fun _ => rfl⟩
      rw [prefixBlocks_succ exs idx hlt, Nat.add_mul]
      omega
    rw [directWriteLoop_advance bs exs idx ebw b rest hlt hrem]
    exact ih c hrep2 hcap
  | case4 idx ebw b rest hidx hrem chunk ih =>
    intro c hrep hcap
    have hlt : idx < exs.length := by omega
    obtain ⟨hle, hc, hbound, hend⟩ := hrep
    have hb := hbound hlt
    have hminl : chunk ≤ (b :: rest).length := Nat.min_le_left _ _
    have hminr : chunk ≤ exs[idx].num_blocks * bs - ebw :=
      Nat.min_le_right _ _
    have hdrop : (List.drop chunk (b :: rest)).length =
        (b :: rest).length - chunk := List.length_drop _ _
    have hrep2 : ReprG exs bs idx (ebw + chunk) (c + chunk) :=
      ⟨hle, by omega, fun h => by omega, fun heq => absurd heq (by omega)⟩
    have hcap2 : totalBlocks exs * bs <
        c + chunk + (List.drop chunk (b :: rest)).length := by omega
    have hmain := ih (c + chunk) hrep2 hcap2
    rw [directWriteLoop_chunk bs exs idx ebw b rest hlt hrem]
    exact hmain

/-- A loop run that reports success advances the cursor by exactly its byte
count (no silent truncation). -/
lemma directWriteLoop_true_repr (bs : Nat) (exs : List Extent) :
    ∀ (idx ebw : Nat) (bytes : List Nat), ∀ c : Nat,
      ReprG exs bs idx ebw c →
      (directWriteLoop bs exs idx ebw bytes).1 = true →
      ReprG exs bs (directWriteLoop bs exs idx ebw bytes).2.1
        (directWriteLoop bs exs idx ebw bytes).2.2.1
        (c + bytes.length) := by
  intro idx ebw bytes
  induction idx, ebw, bytes using directWriteLoop.induct bs exs with
  | case1 idx ebw =>
    intro c hrep htrue
    rw [directWriteLoop_nil]
    simpa using hrep
  | case2 idx ebw b rest hidx =>
    intro c hrep htrue
    rw [directWriteLoop_exhausted bs exs idx ebw b rest hidx] at htrue
    exact absurd htrue (by simp)
  | case3 idx ebw b rest hidx hrem ih =>
    intro c hrep htrue
    have hlt : idx < exs.length := by omega
    obtain ⟨hle, hc, hbound, hend⟩ := hrep
    have hb := hbound hlt
    have hrep2 : ReprG exs bs (idx + 1) 0 c := by
      refine ⟨by omega, ?_, fun h => Nat.zero_le _, fun _ => rfl⟩
      rw [prefixBlocks_succ exs idx hlt, Nat.add_mul]
      omega
    rw [directWriteLoop_advance bs exs idx ebw b rest hlt hrem] at htrue ⊢
    exact ih c hrep2 htrue
  | case4 idx ebw b rest hidx hrem chunk ih =>
    intro c hrep htrue
    have hlt : idx < exs.length := by omega
    obtain ⟨hle, hc, hbound, hend⟩ := hrep
    have hb := hbound hlt
    have hminl : chunk ≤ (b :: rest).length := Nat.min_le_left _ _
    have hminr : chunk ≤ exs[idx].num_blocks * bs - ebw :=
      Nat.min_le_right _ _
    have hdrop : (List.drop chunk (b :: rest)).length =
        (b :: rest).length - chunk := List.length_drop _ _
    have hrep2 : ReprG exs bs idx (ebw + chunk) (c + chunk) :=
      ⟨hle, by omega, fun h => by omega, fun heq => absurd heq (by omega)⟩
    rw [directWriteLoop_chunk bs exs idx ebw b rest hlt hrem] at htrue ⊢
    have hmain := ih (c + chunk) hrep2 htrue
    have harith : c + chunk + (List.drop chunk (b :: rest)).length =
        c + (b :: rest).length := by omega
    rw [harith] at hmain
    exact hmain

lemma ReprG_advance (exs : List Extent) (bs idx ebw c : Nat)
    (h : ReprG exs bs idx ebw c) (hlt : idx < exs.length)
    (hrem : exs[idx].num_blocks * bs - ebw = 0) :
    ReprG exs bs (idx + 1) 0 c := by
  obtain ⟨hle, hc, hbound, hend⟩ := h
  have hb := hbound hlt
  refine ⟨by omega, ?_, fun h2 => Nat.zero_le _, fun _ => rfl⟩
  rw [prefixBlocks_succ exs idx hlt, Nat.add_mul]
  omega

/-- Looking a position up in a concatenated trace: the later segment wins,
the earlier one answers only where the later has nothing. -/
lemma lookupTrace_append (a b : List (Nat × List Nat)) (p : Nat) :
    lookupTrace (a ++ b) p = (lookupTrace b p).or (lookupTrace a p) := by
  induction a with
  | nil =>
    show lookupTrace b p = (lookupTrace b p).or none
    cases lookupTrace b p <;> rfl
  | cons hd tl ih =>
    obtain ⟨off, data⟩ := hd
    show (lookupTrace (tl ++ b) p).or _ = _
    rw [ih, Option.or_assoc]
    rfl

lemma physLookup_nil (c p : Nat) : physLookup c [] p = none := by
  unfold physLookup
  split_ifs with h1 h2
  · exfalso
    simp only [List.length_nil] at h1
    omega
  · exfalso
    simp only [List.length_nil] at h2
    omega
  · rfl

/-- Splitting a chunk off the front of a write that lands inside the first
extent of the scenario: the chunk placed at `20480 + c` together with the
placement of the remaining bytes from position `c + chunk` covers exactly
the placement of the whole write from position `c`. -/
lemma physLookup_chunk1 (c chunk : Nat) (bytes : List Nat) (p : Nat)
    (hch : chunk ≤ bytes.length) (hbound : c + chunk ≤ 8192) :
    (physLookup (c + chunk) (bytes.drop chunk) p).or
      (if 20480 + c ≤ p ∧
          p < 20480 + c + (bytes.take chunk).length then
        some ((bytes.take chunk).getD (p - (20480 + c)) 0)
      else none) = physLookup c bytes p := by
  have htl : (bytes.take chunk).length = chunk := by
    rw [List.length_take]
    omega
  have hdl : (bytes.drop chunk).length = bytes.length - chunk :=
    List.length_drop _ _
  rw [htl]
  unfold physLookup
  rw [hdl]
  split_ifs
  all_goals simp only [Option.or_some, Option.none_or]
  all_goals try simp only [List.getD_eq_getElem?_getD, List.getElem?_take,
    List.getElem?_drop]
  all_goals try split_ifs
  all_goals try (exfalso; omega)
  all_goals exact congrArg (fun k => some (bytes[k]?.getD 0)) (by omega)

/-- Splitting a chunk off the front of a write that lands inside the second
extent of the scenario, `ebw` bytes into it. -/
lemma physLookup_chunk2 (ebw chunk : Nat) (bytes : List Nat) (p : Nat)
    (hch : chunk ≤ bytes.length) (hbound : ebw + chunk ≤ 4096) :
    (physLookup (8192 + ebw + chunk) (bytes.drop chunk) p).or
      (if 40960 + ebw ≤ p ∧
          p < 40960 + ebw + (bytes.take chunk).length then
        some ((bytes.take chunk).getD (p - (40960 + ebw)) 0)
      else none) = physLookup (8192 + ebw) bytes p := by
  have htl : (bytes.take chunk).length = chunk := by
    rw [List.length_take]
    omega
  have hdl : (bytes.drop chunk).length = bytes.length - chunk :=
    List.length_drop _ _
  rw [htl]
  unfold physLookup
  rw [hdl]
  split_ifs
  all_goals simp only [Option.or_some, Option.none_or]
  all_goals try simp only [List.getD_eq_getElem?_getD, List.getElem?_take,
    List.getElem?_drop]
  all_goals try split_ifs
  all_goals try (exfalso; omega)
  all_goals exact congrArg (fun k => some (bytes[k]?.getD 0)) (by omega)

/-- The placement of `bytes` continuing at position `done.length`, falling
back to the placement of `done` from position 0, is the placement of
`done ++ bytes` from position 0. -/
lemma physLookup_append (done bytes : List Nat) (p : Nat) :
    (physLookup done.length bytes p).or (physLookup 0 done p) =
      physLookup 0 (done ++ bytes) p := by
  unfold physLookup
  rw [List.length_append]
  split_ifs
  all_goals simp only [Option.or_some, Option.none_or]
  all_goals try simp only [List.getD_eq_getElem?_getD,
    List.getElem?_append]
  all_goals try split_ifs
  all_goals try (exfalso; omega)
  all_goals
    first
      | (exact congrArg (fun k => some (bytes[k]?.getD 0)) (by omega))
      | (exact congrArg (fun k => some (done[k]?.getD 0)) (by omega))

/-- Running a batch of `Write` calls within capacity through the Direct
Writer succeeds call by call, and the cursor tracks the total. -/
lemma runCalls_direct_ok (bs : Nat) (exs : List Extent) :
    ∀ (calls : List (List Nat)) (s : DirectState) (c : Nat),
      s.block_size = bs → s.extents = exs →
      ReprG exs bs s.next_extent_index s.extent_bytes_written c →
      c + calls.flatten.length ≤ totalBlocks exs * bs →
      ∃ s', runCalls directWriter s calls =
          some (List.replicate calls.length true, s') ∧
        s'.block_size = bs ∧ s'.extents = exs ∧
        ReprG exs bs s'.next_extent_index s'.extent_bytes_written
          (c + calls.flatten.length) := by
  intro calls
  induction calls with
  | nil =>
    intro s c hbs hexs hrep hcap
    exact ⟨s, rfl, hbs, hexs, by simpa using hrep⟩
  | cons b rest ih =>
    intro s c hbs hexs hrep hcap
    simp only [List.flatten_cons, List.length_append] at hcap
    have hcap1 : c + b.length ≤ totalBlocks exs * bs := by omega
    obtain ⟨hok1, hok2⟩ := directWriteLoop_ok bs exs s.next_extent_index
      s.extent_bytes_written b c hrep hcap1
    have hds : directWrite s b =
        ((directWriteLoop bs exs s.next_extent_index
            s.extent_bytes_written b).1,
          { s with
            next_extent_index := (directWriteLoop bs exs
              s.next_extent_index s.extent_bytes_written b).2.1,
            extent_bytes_written := (directWriteLoop bs exs
              s.next_extent_index s.extent_bytes_written b).2.2.1,
            fd := s.fd ++ (directWriteLoop bs exs s.next_extent_index
              s.extent_bytes_written b).2.2.2 }) := by
      unfold directWrite
      rw [hbs, hexs]
    have hw : directWriter.writeOp s b = some (true,
        { s with
          next_extent_index := (directWriteLoop bs exs s.next_extent_index
            s.extent_bytes_written b).2.1,
          extent_bytes_written := (directWriteLoop bs exs
            s.next_extent_index s.extent_bytes_written b).2.2.1,
          fd := s.fd ++ (directWriteLoop bs exs s.next_extent_index
            s.extent_bytes_written b).2.2.2 }) := by
      rw [show directWriter.writeOp s b = some (directWrite s b) from rfl,
        hds, hok1]
    obtain ⟨s', hrun, hf1, hf2, hf3⟩ := ih
      ({ s with
        next_extent_index := (directWriteLoop bs exs s.next_extent_index
          s.extent_bytes_written b).2.1,
        extent_bytes_written := (directWriteLoop bs exs
          s.next_extent_index s.extent_bytes_written b).2.2.1,
        fd := s.fd ++ (directWriteLoop bs exs s.next_extent_index
          s.extent_bytes_written b).2.2.2 })
      (c + b.length) hbs hexs hok2 (by omega)
    refine ⟨s', ?_, hf1, hf2, ?_⟩
    · simp only [runCalls, hw, hrun, List.length_cons,
        List.replicate_succ]
    · rw [List.flatten_cons, List.length_append, ← Nat.add_assoc]
      exact hf3

/-- A batch of `Write` calls that all reported success has consumed exactly
its total byte count: the cursor of the final state represents it. -/
lemma runCalls_direct_true (bs : Nat) (exs : List Extent) :
    ∀ (calls : List (List Nat)) (s : DirectState) (c : Nat)
      (rs : List Bool) (s' : DirectState),
      s.block_size = bs → s.extents = exs →
      ReprG exs bs s.next_extent_index s.extent_bytes_written c →
      runCalls directWriter s calls = some (rs, s') →
      rs = List.replicate calls.length true →
      s'.block_size = bs ∧ s'.extents = exs ∧
      ReprG exs bs s'.next_extent_index s'.extent_bytes_written
        (c + calls.flatten.length) := by
  intro calls
  induction calls with
  | nil =>
    intro s c rs s' hbs hexs hrep hrun hrs
    simp only [runCalls, Option.some.injEq, Prod.mk.injEq] at hrun
    obtain ⟨-, rfl⟩ := hrun
    exact ⟨hbs, hexs, by simpa using hrep⟩
  | cons b rest ih =>
    intro s c rs s' hbs hexs hrep hrun hrs
    rw [List.length_cons, List.replicate_succ] at hrs
    have hds : directWrite s b =
        ((directWriteLoop bs exs s.next_extent_index
            s.extent_bytes_written b).1,
          { s with
            next_extent_index := (directWriteLoop bs exs
              s.next_extent_index s.extent_bytes_written b).2.1,
            extent_bytes_written := (directWriteLoop bs exs
              s.next_extent_index s.extent_bytes_written b).2.2.1,
            fd := s.fd ++ (directWriteLoop bs exs s.next_extent_index
              s.extent_bytes_written b).2.2.2 }) := by
      unfold directWrite
      rw [hbs, hexs]
    have hw : directWriter.writeOp s b =
        some ((directWriteLoop bs exs s.next_extent_index
            s.extent_bytes_written b).1,
          { s with
            next_extent_index := (directWriteLoop bs exs
              s.next_extent_index s.extent_bytes_written b).2.1,
            extent_bytes_written := (directWriteLoop bs exs
              s.next_extent_index s.extent_bytes_written b).2.2.1,
            fd := s.fd ++ (directWriteLoop bs exs s.next_extent_index
              s.extent_bytes_written b).2.2.2 }) := by
      rw [show directWriter.writeOp s b = some (directWrite s b) from rfl,
        hds]
    simp only [runCalls] at hrun
    rw [hw] at hrun
    dsimp only at hrun
    cases hr2 : runCalls directWriter
        ({ s with
          next_extent_index := (directWriteLoop bs exs s.next_extent_index
            s.extent_bytes_written b).2.1,
          extent_bytes_written := (directWriteLoop bs exs
            s.next_extent_index s.extent_bytes_written b).2.2.1,
          fd := s.fd ++ (directWriteLoop bs exs s.next_extent_index
            s.extent_bytes_written b).2.2.2 }) rest with
    | none => rw [hr2] at hrun; exact absurd hrun (by simp)
    | some out =>
      obtain ⟨rs2, s2⟩ := out
      rw [hr2] at hrun
      simp only [Option.some.injEq, Prod.mk.injEq] at hrun
      obtain ⟨hrseq, rfl⟩ := hrun
      rw [← hrseq] at hrs
      simp only [List.cons.injEq] at hrs
      obtain ⟨hok, hrs2⟩ := hrs
      have hrep1 := directWriteLoop_true_repr bs exs s.next_extent_index
        s.extent_bytes_written b c hrep hok
      have hmain := ih ({ s with
          next_extent_index := (directWriteLoop bs exs s.next_extent_index
            s.extent_bytes_written b).2.1,
          extent_bytes_written := (directWriteLoop bs exs
            s.next_extent_index s.extent_bytes_written b).2.2.1,
          fd := s.fd ++ (directWriteLoop bs exs s.next_extent_index
            s.extent_bytes_written b).2.2.2 })
        (c + b.length) rs2 s2 hbs hexs hrep1 hr2 hrs2
      refine ⟨hmain.1, hmain.2.1, ?_⟩
      rw [List.flatten_cons, List.length_append, ← Nat.add_assoc]
      exact hmain.2.2

/-- In the spec's scenario (`exs0`, block size 4096), a loop run from a
cursor at logical position `c` issues positioned writes whose content is
exactly the placement of its bytes from position `c`: the first extent's
bytes at `20480 + n`, the second extent's at `40960 + (n - 8192)`, nothing
anywhere else. -/
lemma directWriteLoop_content :
    ∀ (idx ebw : Nat) (bytes : List Nat), ∀ c : Nat,
      ReprG exs0 4096 idx ebw c →
      c + bytes.length ≤ 12288 →
      ∀ p, lookupTrace
          (directWriteLoop 4096 exs0 idx ebw bytes).2.2.2 p =
        physLookup c bytes p := by
  intro idx ebw bytes
  induction idx, ebw, bytes using directWriteLoop.induct 4096 exs0 with
  | case1 idx ebw =>
    intro c hrep hcap p
    rw [directWriteLoop_nil, physLookup_nil]
    rfl
  | case2 idx ebw b rest hidx =>
    intro c hrep hcap p
    exfalso
    obtain ⟨hle, hc, -, hend⟩ := hrep
    have h2 : exs0.length = 2 := rfl
    have hidx2 : idx = 2 := by omega
    subst hidx2
    have hebw : ebw = 0 := hend (by rw [h2])
    have hpb : prefixBlocks exs0 2 = 3 := rfl
    rw [hpb, hebw] at hc
    simp only [List.length_cons] at hcap
    omega
  | case3 idx ebw b rest hidx hrem ih =>
    intro c hrep hcap p
    have h2 : exs0.length = 2 := rfl
    have hlt : idx < exs0.length := by omega
    rw [directWriteLoop_advance 4096 exs0 idx ebw b rest hlt hrem]
    exact ih c (ReprG_advance exs0 4096 idx ebw c hrep hlt hrem) hcap p
  | case4 idx ebw b rest hidx hrem chunk ih =>
    intro c hrep hcap p
    have h2 : exs0.length = 2 := rfl
    have hlt : idx < exs0.length := by omega
    obtain ⟨hle, hc, hbound, hend⟩ := hrep
    have hb := hbound hlt
    have hminl : chunk ≤ (b :: rest).length := Nat.min_le_left _ _
    have hminr : chunk ≤ exs0[idx].num_blocks * 4096 - ebw :=
      Nat.min_le_right _ _
    have hdrop : (List.drop chunk (b :: rest)).length =
        (b :: rest).length - chunk := List.length_drop _ _
    have hrep2 : ReprG exs0 4096 idx (ebw + chunk) (c + chunk) :=
      ⟨hle, by omega, fun h => by omega, fun heq => absurd heq (by omega)⟩
    have hcap2 : c + chunk + (List.drop chunk (b :: rest)).length ≤
        12288 := by omega
    have hih := ih (c + chunk) hrep2 hcap2
    rw [directWriteLoop_chunk 4096 exs0 idx ebw b rest hlt hrem]
    have hlt2 : idx < 2 := by omega
    have hsplit : idx = 0 ∨ idx = 1 := by omega
    rcases hsplit with hidx0 | hidx1
    · subst hidx0
      rw [if_neg (by norm_num [exs0, kSparseHole])]
      simp only [lookupTrace]
      have hceq : c = ebw := by
        have hp0 : prefixBlocks exs0 0 = 0 := rfl
        omega
      have he0 : exs0[0].num_blocks * 4096 = 2 * 4096 := rfl
      have hchunk : chunk = min (b :: rest).length
          (exs0[0].num_blocks * 4096 - ebw) := rfl
      have ho0 : exs0[0].start_block * 4096 = 5 * 4096 := rfl
      rw [hceq] at hih
      rw [hceq, ho0, show (5 * 4096 : Nat) = 20480 from rfl, ← hchunk]
      rw [hih p]
      exact physLookup_chunk1 ebw chunk (b :: rest) p hminl (by omega)
    · subst hidx1
      rw [if_neg (by norm_num [exs0, kSparseHole])]
      simp only [lookupTrace]
      have hceq : c = 8192 + ebw := by
        have hp1 : prefixBlocks exs0 1 = 2 := rfl
        omega
      have he1 : exs0[1].num_blocks * 4096 = 1 * 4096 := rfl
      have hchunk : chunk = min (b :: rest).length
          (exs0[1].num_blocks * 4096 - ebw) := rfl
      have ho1 : exs0[1].start_block * 4096 = 10 * 4096 := rfl
      rw [hceq] at hih
      rw [hceq, ho1, show (10 * 4096 : Nat) = 40960 from rfl, ← hchunk]
      rw [hih p]
      exact physLookup_chunk2 ebw chunk (b :: rest) p hminl (by omega)

/-- Whole-session content tracking for the spec's scenario: if the target
content so far is the placement of `done`, then after any further calls
within capacity (all of which succeed) it is the placement of
`done ++ calls.flatten`. -/
lemma runCalls_direct_content :
    ∀ (calls : List (List Nat)) (s : DirectState) (done : List Nat),
      s.block_size = 4096 → s.extents = exs0 →
      ReprG exs0 4096 s.next_extent_index s.extent_bytes_written
        done.length →
      (∀ p, lookupTrace s.fd p = physLookup 0 done p) →
      done.length + calls.flatten.length ≤ 12288 →
      ∃ s', runCalls directWriter s calls =
          some (List.replicate calls.length true, s') ∧
        ∀ p, lookupTrace s'.fd p =
          physLookup 0 (done ++ calls.flatten) p := by
  intro calls
  induction calls with
  | nil =>
    intro s done hbs hexs hrep hcontent hcap
    exact ⟨s, rfl, by simpa using hcontent⟩
  | cons b rest ih =>
    intro s done hbs hexs hrep hcontent hcap
    simp only [List.flatten_cons, List.length_append] at hcap
    have hcap1 : done.length + b.length ≤ totalBlocks exs0 * 4096 := by
      have ht : totalBlocks exs0 * 4096 = 12288 := rfl
      omega
    obtain ⟨hok1, -⟩ := directWriteLoop_ok 4096 exs0
      s.next_extent_index s.extent_bytes_written b done.length hrep hcap1
    have hrep1 := directWriteLoop_true_repr 4096 exs0 s.next_extent_index
      s.extent_bytes_written b done.length hrep hok1
    have hcnt := directWriteLoop_content s.next_extent_index
      s.extent_bytes_written b done.length hrep (by omega)
    have hds : directWrite s b =
        ((directWriteLoop 4096 exs0 s.next_extent_index
            s.extent_bytes_written b).1,
          { s with
            next_extent_index := (directWriteLoop 4096 exs0
              s.next_extent_index s.extent_bytes_written b).2.1,
            extent_bytes_written := (directWriteLoop 4096 exs0
              s.next_extent_index s.extent_bytes_written b).2.2.1,
            fd := s.fd ++ (directWriteLoop 4096 exs0 s.next_extent_index
              s.extent_bytes_written b).2.2.2 }) := by
      unfold directWrite
      rw [hbs, hexs]
    have hw : directWriter.writeOp s b = some (true,
        { s with
          next_extent_index := (directWriteLoop 4096 exs0
            s.next_extent_index s.extent_bytes_written b).2.1,
          extent_bytes_written := (directWriteLoop 4096 exs0
            s.next_extent_index s.extent_bytes_written b).2.2.1,
          fd := s.fd ++ (directWriteLoop 4096 exs0 s.next_extent_index
            s.extent_bytes_written b).2.2.2 }) := by
      rw [show directWriter.writeOp s b = some (directWrite s b) from rfl,
        hds, hok1]
    have hcontent1 : ∀ p, lookupTrace (s.fd ++ (directWriteLoop 4096 exs0
        s.next_extent_index s.extent_bytes_written b).2.2.2) p =
        physLookup 0 (done ++ b) p := by
      intro p
      rw [lookupTrace_append, hcnt p, hcontent p, physLookup_append]
    have hlen1 : (done ++ b).length = done.length + b.length :=
      List.length_append _ _
    obtain ⟨s', hrun, hcnt'⟩ := ih
      ({ s with
        next_extent_index := (directWriteLoop 4096 exs0
          s.next_extent_index s.extent_bytes_written b).2.1,
        extent_bytes_written := (directWriteLoop 4096 exs0
          s.next_extent_index s.extent_bytes_written b).2.2.1,
        fd := s.fd ++ (directWriteLoop 4096 exs0 s.next_extent_index
          s.extent_bytes_written b).2.2.2 })
      (done ++ b) hbs hexs (by rw [hlen1]; exact hrep1) hcontent1
      (by rw [hlen1]; omega)
    refine ⟨s', ?_, ?_⟩
    · simp only [runCalls, hw, hrun, List.length_cons,
        List.replicate_succ]
    · intro p
      rw [hcnt' p, List.flatten_cons, List.append_assoc]

/-! ## Stacked Zero-Pad decorators (C5) -/

lemma zeroPadWriter_writeOp_def {φ σ : Type} (w : ExtentWriterImpl φ σ)
    (s : ZeroPadState σ) (bytes : List Nat) :
    (zeroPadWriter w).writeOp s bytes =
      match w.writeOp s.underlying.core bytes with
      | none => none
      | some (false, c) =>
        some (false, { s with underlying := ⟨c, s.underlying.end_called⟩ })
      | some (true, c) =>
        match cppMod (s.bytes_written_mod_block_size + bytes.length)
            s.block_size with
        | none => none
        | some m =>
          some (true,
            { s with
              underlying := ⟨c, s.underlying.end_called⟩,
              bytes_written_mod_block_size := m }) := rfl

lemma zeroPadWriter_endImplOp_def {φ σ : Type} (w : ExtentWriterImpl φ σ)
    (s : ZeroPadState σ) :
    (zeroPadWriter w).endImplOp s = zeroPadEndImpl w s := rfl

/-- One `Write` call preserves the simulation: the doubly and singly
decorated writers return the same caller result (or both run into undefined
behaviour) and stay related. -/
lemma ZPRel_write {φ σ : Type} (w : ExtentWriterImpl φ σ)
    (d : ZeroPadState (ZeroPadState σ)) (s : ZeroPadState σ)
    (h : ZPRel d s) (bytes : List Nat) :
    ((zeroPadWriter (zeroPadWriter w)).writeOp d bytes = none ∧
      (zeroPadWriter w).writeOp s bytes = none) ∨
    (∃ b d' s',
      (zeroPadWriter (zeroPadWriter w)).writeOp d bytes = some (b, d') ∧
      (zeroPadWriter w).writeOp s bytes = some (b, s') ∧ ZPRel d' s') := by
  obtain ⟨h1, h2, h3, h4, h5, h6, h7⟩ := h
  have hcore : d.underlying.core.underlying.core = s.underlying.core := by
    rw [h5]
  rw [zeroPadWriter_writeOp_def (zeroPadWriter w) d bytes,
    zeroPadWriter_writeOp_def w d.underlying.core bytes,
    zeroPadWriter_writeOp_def w s bytes, hcore, h4, h2, h3, h1]
  cases hw : w.writeOp s.underlying.core bytes with
  | none => exact Or.inl ⟨rfl, rfl⟩
  | some r =>
    obtain ⟨ok, c⟩ := r
    cases ok with
    | false =>
      refine Or.inr ⟨false, _, _, rfl, rfl, ?_⟩
      exact ⟨rfl, rfl, rfl, rfl,
        congrArg (fun u => (⟨c, u.end_called⟩ : ObjState σ)) h5, h6, h7⟩
    | true =>
      by_cases hbs : s.block_size = 0
      · rw [hbs]
        simp only [cppMod, if_pos rfl]
        exact Or.inl ⟨rfl, rfl⟩
      · simp only [cppMod, if_neg hbs]
        refine Or.inr ⟨true, _, _, rfl, rfl, ?_⟩
        exact ⟨rfl, rfl, rfl, rfl,
          congrArg (fun u => (⟨c, u.end_called⟩ : ObjState σ)) h5,
          fun h0 => absurd h0 hbs, fun _ => Nat.mod_lt _ (by omega)⟩

/-- Finalize preserves the simulation: the doubly and singly decorated
`EndImpl`s return the same caller result (or both run into undefined
behaviour), and leave the wrapped writer in the same object state. -/
lemma ZPRel_end {φ σ : Type} (w : ExtentWriterImpl φ σ)
    (d : ZeroPadState (ZeroPadState σ)) (s : ZeroPadState σ)
    (h : ZPRel d s) :
    (zeroPadEndImpl (zeroPadWriter w) d = none ∧
      zeroPadEndImpl w s = none) ∨
    (∃ b d' s', zeroPadEndImpl (zeroPadWriter w) d = some (b, d') ∧
      zeroPadEndImpl w s = some (b, s') ∧
      d'.underlying.core.underlying = s'.underlying) := by
  obtain ⟨h1, h2, h3, h4, h5, h6, h7⟩ := h
  have hcore : d.underlying.core.underlying.core = s.underlying.core := by
    rw [h5]
  by_cases hm : s.bytes_written_mod_block_size = 0
  · unfold zeroPadEndImpl
    rw [if_neg (by omega), if_neg (by omega),
      zeroPadWriter_endImplOp_def]
    unfold zeroPadEndImpl
    rw [if_neg (by omega), hcore]
    cases he : w.endImplOp s.underlying.core with
    | none => exact Or.inl ⟨rfl, rfl⟩
    | some r =>
      obtain ⟨b, c2⟩ := r
      exact Or.inr ⟨b, _, _, rfl, rfl, rfl⟩
  · have hbs : s.block_size ≠ 0 := fun h0 => hm (h6 h0)
    have hmlt : s.bytes_written_mod_block_size < s.block_size := h7 hbs
    unfold zeroPadEndImpl
    rw [if_pos (by omega), if_pos (by omega), h1, h3,
      zeroPadWriter_writeOp_def, hcore]
    cases hw : w.writeOp s.underlying.core
        (List.replicate
          (s.block_size - s.bytes_written_mod_block_size) 0) with
    | none => exact Or.inl ⟨rfl, rfl⟩
    | some r =>
      obtain ⟨ok, c⟩ := r
      cases ok with
      | false =>
        exact Or.inr ⟨false, _, _, rfl, rfl,
          congrArg (fun u => (⟨c, u.end_called⟩ : ObjState σ)) h5⟩
      | true =>
        rw [h4, h2]
        have hpad : (s.bytes_written_mod_block_size +
            (List.replicate
              (s.block_size - s.bytes_written_mod_block_size)
              (0 : Nat)).length) % s.block_size = 0 := by
          rw [List.length_replicate, Nat.add_sub_cancel' (by omega),
            Nat.mod_self]
        simp only [cppMod, if_neg hbs, hpad]
        rw [zeroPadWriter_endImplOp_def]
        unfold zeroPadEndImpl
        rw [if_neg (by simp)]
        simp only
        cases he : w.endImplOp c with
        | none => exact Or.inl ⟨rfl, rfl⟩
        | some r2 =>
          obtain ⟨b, c2⟩ := r2
          exact Or.inr ⟨b, _, _, rfl, rfl, rfl⟩

/-- A whole list of `Write` calls preserves the simulation, with the same
results seen by the caller. -/
lemma ZPRel_runCalls {φ σ : Type} (w : ExtentWriterImpl φ σ) :
    ∀ (calls : List (List Nat)) (d : ZeroPadState (ZeroPadState σ))
      (s : ZeroPadState σ), ZPRel d s →
      (runCalls (zeroPadWriter (zeroPadWriter w)) d calls = none ∧
        runCalls (zeroPadWriter w) s calls = none) ∨
      (∃ rs d' s',
        runCalls (zeroPadWriter (zeroPadWriter w)) d calls =
          some (rs, d') ∧
        runCalls (zeroPadWriter w) s calls = some (rs, s') ∧
        ZPRel d' s') := by
  intro calls
  induction calls with
  | nil => exact fun d s h => Or.inr ⟨[], d, s, rfl, rfl, h⟩
  | cons b rest ih =>
    intro d s h
    rcases ZPRel_write w d s h b with ⟨hd, hs⟩ | ⟨ok, d1, s1, hd, hs, h1⟩
    · exact Or.inl ⟨by simp only [runCalls, hd], by simp only [runCalls, hs]⟩
    · rcases ih d1 s1 h1 with ⟨hd2, hs2⟩ | ⟨rs, d2, s2, hd2, hs2, h2⟩
      · exact Or.inl ⟨by simp only [runCalls, hd, hd2],
          by simp only [runCalls, hs, hs2]⟩
      · exact Or.inr ⟨ok :: rs, d2, s2,
          by simp only [runCalls, hd, hd2],
          by simp only [runCalls, hs, hs2], h2⟩

lemma zeroPadWriter_initOp_def {φ σ : Type} (w : ExtentWriterImpl φ σ)
    (s : ZeroPadState σ) (fd : φ) (ex : List Extent) (bs : Nat) :
    (zeroPadWriter w).initOp s fd ex bs =
      (w.initOp s.underlying.core fd ex bs).map
        (fun r => (r.1,
          { s with
            block_size := bs,
            underlying := ⟨r.2, s.underlying.end_called⟩ })) := rfl

/-! ## Claim theorems -/

/-- Claim C1: in a Direct Writer session over extents
`[(start=5,count=2),(start=10,count=1)]` with block size 4096, for every
sequence of `Write` calls whose concatenation is a 12288-byte logical
stream, every call succeeds, logical bytes `0..8191` land at target byte
offsets `20480..28671`, logical bytes `8192..12287` land at
`40960..45055`, and no byte is written anywhere else — so no byte is
duplicated, dropped or misplaced. -/
theorem direct_roundtrip_placement (calls : List (List Nat))
    (h : calls.flatten.length = 12288) :
    ∃ s', runCalls directWriter (initialDirect [] exs0 4096) calls =
        some (List.replicate calls.length true, s') ∧
      (∀ i, i < 8192 →
        lookupTrace s'.fd (20480 + i) = some (calls.flatten.getD i 0)) ∧
      (∀ j, j < 4096 →
        lookupTrace s'.fd (40960 + j) =
          some (calls.flatten.getD (8192 + j) 0)) ∧
      (∀ p, lookupTrace s'.fd p ≠ none →
        (20480 ≤ p ∧ p < 28672) ∨ (40960 ≤ p ∧ p < 45056)) := by
  obtain ⟨s', hrun, hcnt⟩ := runCalls_direct_content calls
    (initialDirect [] exs0 4096) [] rfl rfl
    ⟨Nat.zero_le _, by simp [initialDirect, prefixBlocks_zero],
      fun h2 => Nat.zero_le _, fun h2 => rfl⟩
    (fun p => by rw [physLookup_nil]; rfl)
    (by simp only [List.length_nil, Nat.zero_add, h]; omega)
  simp only [List.nil_append] at hcnt
  refine ⟨s', hrun, ?_, ?_, ?_⟩
  · intro i hi
    rw [hcnt (20480 + i)]
    unfold physLookup
    rw [if_pos ⟨by omega, by omega, by omega, by omega⟩]
    exact congrArg (fun k => some (calls.flatten.getD k 0)) (by omega)
  · intro j hj
    rw [hcnt (40960 + j)]
    unfold physLookup
    rw [if_neg (by omega), if_pos ⟨by omega, by omega, by omega,
      by omega⟩]
    exact congrArg (fun k => some (calls.flatten.getD k 0)) (by omega)
  · intro p hp
    rw [hcnt p] at hp
    unfold physLookup at hp
    split_ifs at hp with h1 h2
    · exact Or.inl ⟨h1.1, h1.2.1⟩
    · exact Or.inr ⟨h2.1, h2.2.1⟩
    · exact absurd rfl hp

/-- Witness for C1: a single 12288-byte write of zeros through the
scenario's writer. -/
theorem direct_roundtrip_placement_witness :
    ∃ s', runCalls directWriter (initialDirect [] exs0 4096)
        [List.replicate 12288 0] =
        some (List.replicate [List.replicate 12288 (0 : Nat)].length true,
          s') ∧
      (∀ i, i < 8192 →
        lookupTrace s'.fd (20480 + i) =
          some ([List.replicate 12288 (0 : Nat)].flatten.getD i 0)) ∧
      (∀ j, j < 4096 →
        lookupTrace s'.fd (40960 + j) =
          some ([List.replicate 12288 (0 : Nat)].flatten.getD
            (8192 + j) 0)) ∧
      (∀ p, lookupTrace s'.fd p ≠ none →
        (20480 ≤ p ∧ p < 28672) ∨ (40960 ≤ p ∧ p < 45056)) :=
  direct_roundtrip_placement [List.replicate 12288 0]
    (by simp only [List.flatten_cons, List.flatten_nil, List.append_nil,
      List.length_replicate])

/-- Claim C2: in a Zero-Pad session whose successfully written byte total
`T` is not a multiple of the block size, the modulo counter equals
`T % block_size` and finalize behaves as: exactly one additional write of
`block_size - T % block_size` zero bytes through the wrapped writer, the
whole finalize failing if that padding write fails, and otherwise the
wrapped writer's `End` is forwarded and its result returned. -/
theorem zeroPad_finalize_pads {φ σ : Type} (w : ExtentWriterImpl φ σ)
    (s s' : ZeroPadState σ) (calls : List (List Nat)) (rs : List Bool)
    (bs : Nat) (hb : s.block_size = bs) (hbs : bs ≠ 0)
    (h0 : s.bytes_written_mod_block_size = 0)
    (hrun : runCalls (zeroPadWriter w) s calls = some (rs, s'))
    (hT : succBytes calls rs % bs ≠ 0) :
    s'.bytes_written_mod_block_size = succBytes calls rs % bs ∧
    zeroPadEndImpl w s' =
      padThenDelegate w s' (bs - succBytes calls rs % bs) := by
  subst hb
  obtain ⟨hbseq, hc, -⟩ :=
    runCalls_zeroPad_counter w calls s rs s' (by omega) hrun
  rw [h0, Nat.zero_add] at hc
  refine ⟨hc, ?_⟩
  rw [zeroPadEndImpl_eq, if_pos (by rw [hc]; exact hT), hc, hbseq]

/-- Witness for C2 at the spec's concrete instance: `4096 + 100` bytes with
block size 4096 leave the counter at 100 and make finalize issue exactly one
padding write of `3996` zero bytes before delegating `End`. -/
theorem zeroPad_finalize_pads_witness :
    (⟨⟨[some 4096, some 100], false⟩, 4096, 100⟩ :
        ZeroPadState (List (Option Nat))).bytes_written_mod_block_size =
      succBytes [List.replicate 4096 0, List.replicate 100 0]
        [true, true] % 4096 ∧
    zeroPadEndImpl recWriter ⟨⟨[some 4096, some 100], false⟩, 4096, 100⟩ =
      padThenDelegate recWriter
        ⟨⟨[some 4096, some 100], false⟩, 4096, 100⟩
        (4096 - succBytes [List.replicate 4096 0, List.replicate 100 0]
          [true, true] % 4096) :=
  zeroPad_finalize_pads recWriter ⟨⟨[], false⟩, 4096, 0⟩
    ⟨⟨[some 4096, some 100], false⟩, 4096, 100⟩
    [List.replicate 4096 0, List.replicate 100 0] [true, true]
    4096 rfl (by decide) rfl
    (by simp only [runCalls]
        simp only [zeroPadWriter]
        simp only [recWriter]
        simp only [List.length_replicate]
        simp only [cppMod]
        norm_num)
    (by simp only [succBytes, List.length_replicate, if_true]
        norm_num)

/-- Claim C6: in a Zero-Pad session whose successfully written byte total is
already a multiple of the block size (including zero), finalize issues no
write at all on the wrapped writer: it only forwards the wrapped writer's
`End`. -/
theorem zeroPad_finalize_aligned {φ σ : Type} (w : ExtentWriterImpl φ σ)
    (s s' : ZeroPadState σ) (calls : List (List Nat)) (rs : List Bool)
    (bs : Nat) (hb : s.block_size = bs) (hbs : bs ≠ 0)
    (h0 : s.bytes_written_mod_block_size = 0)
    (hrun : runCalls (zeroPadWriter w) s calls = some (rs, s'))
    (hT : succBytes calls rs % bs = 0) :
    s'.bytes_written_mod_block_size = 0 ∧
    zeroPadEndImpl w s' = delegateOnly w s' := by
  subst hb
  obtain ⟨hbseq, hc, -⟩ :=
    runCalls_zeroPad_counter w calls s rs s' (by omega) hrun
  rw [h0, Nat.zero_add, hT] at hc
  exact ⟨hc, by rw [zeroPadEndImpl_eq, if_neg (by rw [hc]; omega)]⟩

/-- Witness for C6 at the spec's concrete instance: exactly 4096 bytes with
block size 4096 leave the counter at 0 and finalize only delegates. -/
theorem zeroPad_finalize_aligned_witness :
    (⟨⟨[some 4096], false⟩, 4096, 0⟩ :
        ZeroPadState (List (Option Nat))).bytes_written_mod_block_size = 0 ∧
    zeroPadEndImpl recWriter ⟨⟨[some 4096], false⟩, 4096, 0⟩ =
      delegateOnly recWriter ⟨⟨[some 4096], false⟩, 4096, 0⟩ :=
  zeroPad_finalize_aligned recWriter ⟨⟨[], false⟩, 4096, 0⟩
    ⟨⟨[some 4096], false⟩, 4096, 0⟩ [List.replicate 4096 0] [true]
    4096 rfl (by decide) rfl
    (by simp only [runCalls]
        simp only [zeroPadWriter]
        simp only [recWriter]
        simp only [List.length_replicate]
        simp only [cppMod]
        norm_num)
    (by simp only [succBytes, List.length_replicate, if_true]
        try norm_num)

/-- Claim C3: a Direct Writer session with total capacity
`block_size * sum(extent.count)` accepts any sequence of writes totalling
exactly that capacity (every call returns success), while after any
all-successful sequence, a further write call that would take the running
total even one byte past the capacity itself returns failure (exhausted
extents) instead of silently truncating. -/
theorem direct_write_capacity (bs : Nat) (exs : List Extent)
    (fd0 : List (Nat × List Nat)) :
    (∀ calls : List (List Nat),
      calls.flatten.length = bs * totalBlocks exs →
      ∃ s', runCalls directWriter (initialDirect fd0 exs bs) calls =
        some (List.replicate calls.length true, s')) ∧
    (∀ (calls : List (List Nat)) (s' : DirectState) (extra : List Nat),
      runCalls directWriter (initialDirect fd0 exs bs) calls =
        some (List.replicate calls.length true, s') →
      bs * totalBlocks exs < calls.flatten.length + extra.length →
      ∃ s2, directWriter.writeOp s' extra = some (false, s2)) := by
  have hrep0 : ReprG exs bs 0 0 0 :=
    ⟨Nat.zero_le _, by simp [prefixBlocks_zero], fun h => Nat.zero_le _,
      fun h => rfl⟩
  constructor
  · intro calls hlen
    obtain ⟨s', hrun, -, -, -⟩ := runCalls_direct_ok bs exs calls
      (initialDirect fd0 exs bs) 0 rfl rfl hrep0
      (by rw [Nat.zero_add, hlen, Nat.mul_comm])
    exact ⟨s', hrun⟩
  · intro calls s' extra hrun hover
    obtain ⟨hbs', hexs', hrep'⟩ := runCalls_direct_true bs exs calls
      (initialDirect fd0 exs bs) 0 _ s' rfl rfl hrep0 hrun rfl
    rw [Nat.zero_add] at hrep'
    have hfalse := directWriteLoop_exceeds bs exs s'.next_extent_index
      s'.extent_bytes_written extra calls.flatten.length hrep'
      (by rw [Nat.mul_comm]; omega)
    have hds : directWrite s' extra =
        ((directWriteLoop bs exs s'.next_extent_index
            s'.extent_bytes_written extra).1,
          { s' with
            next_extent_index := (directWriteLoop bs exs
              s'.next_extent_index s'.extent_bytes_written extra).2.1,
            extent_bytes_written := (directWriteLoop bs exs
              s'.next_extent_index s'.extent_bytes_written extra).2.2.1,
            fd := s'.fd ++ (directWriteLoop bs exs s'.next_extent_index
              s'.extent_bytes_written extra).2.2.2 }) := by
      unfold directWrite
      rw [hbs', hexs']
    refine ⟨{ s' with
        next_extent_index := (directWriteLoop bs exs s'.next_extent_index
          s'.extent_bytes_written extra).2.1,
        extent_bytes_written := (directWriteLoop bs exs
          s'.next_extent_index s'.extent_bytes_written extra).2.2.1,
        fd := s'.fd ++ (directWriteLoop bs exs s'.next_extent_index
          s'.extent_bytes_written extra).2.2.2 }, ?_⟩
    rw [show directWriter.writeOp s' extra = some (directWrite s' extra)
      from rfl, hds, hfalse]

/-- Witness for C3: a one-block extent with block size 2 accepts a 2-byte
write (its exact capacity), and a fresh session fails a 3-byte write that
exceeds the 2-byte capacity. -/
theorem direct_write_capacity_witness :
    (∃ s', runCalls directWriter (initialDirect [] [⟨0, 1⟩] 2) [[9, 9]] =
      some (List.replicate 1 true, s')) ∧
    (∃ s2, directWriter.writeOp (initialDirect [] [⟨0, 1⟩] 2) [9, 9, 9] =
      some (false, s2)) :=
  ⟨(direct_write_capacity 2 [⟨0, 1⟩] []).1 [[9, 9]] (by decide),
    (direct_write_capacity 2 [⟨0, 1⟩] []).2 [] (initialDirect [] [⟨0, 1⟩] 2)
      [9, 9, 9] rfl (by decide)⟩

/-- Claim C4: the decorator's `Write` forwards the call verbatim to the
wrapped writer; exactly on success of the forwarded call the modulo counter
becomes `(counter + count) % block_size` and success is returned, while on
failure the counter (and the rest of the decorator state) is unchanged and
the failure propagates. -/
theorem zeroPad_write_atomic {φ σ : Type} (w : ExtentWriterImpl φ σ)
    (s : ZeroPadState σ) (bytes : List Nat) (hbs : s.block_size ≠ 0) :
    (∀ c, w.writeOp s.underlying.core bytes = some (true, c) →
      (zeroPadWriter w).writeOp s bytes =
        some (true, ⟨⟨c, s.underlying.end_called⟩, s.block_size,
          (s.bytes_written_mod_block_size + bytes.length) %
            s.block_size⟩)) ∧
    (∀ c, w.writeOp s.underlying.core bytes = some (false, c) →
      (zeroPadWriter w).writeOp s bytes =
        some (false, ⟨⟨c, s.underlying.end_called⟩, s.block_size,
          s.bytes_written_mod_block_size⟩)) := by
  constructor <;> intro c h <;> rw [zeroPad_write_shape w s bytes hbs, h]

/-- Witness for C4: a concrete successful and a concrete failing forwarded
write, with block size 4 and counter 1. -/
theorem zeroPad_write_atomic_witness :
    (zeroPadWriter recWriter).writeOp ⟨⟨[], false⟩, 4, 1⟩ [7, 7] =
      some (true, ⟨⟨[some 2], false⟩, 4, (1 + [7, 7].length) % 4⟩) :=
  (zeroPad_write_atomic recWriter ⟨⟨[], false⟩, 4, 1⟩ [7, 7]
    (by decide)).1 [some 2] rfl

/-- Claim C7: the non-virtual `End` records that finalize was invoked by
setting `end_called_`; `Init` and `Write` never change the flag; and the
destructor emits the error diagnostic exactly when the object is destroyed
with the flag unset. -/
theorem end_called_flag_discipline {φ σ : Type} (w : ExtentWriterImpl φ σ)
    (s : ObjState σ) :
    (∀ b s', callEnd w s = some (b, s') → s'.end_called = true) ∧
    (∀ fd ex bs b s', callInit w s fd ex bs = some (b, s') →
      s'.end_called = s.end_called) ∧
    (∀ bytes b s', callWrite w s bytes = some (b, s') →
      s'.end_called = s.end_called) ∧
    (destructorLogsError s = true ↔ s.end_called = false) := by
  refine ⟨?_, ?_, ?_, ?_⟩
  · intro b s' h
    rcases Option.map_eq_some'.mp h with ⟨r, -, hr⟩
    cases hr
    rfl
  · intro fd ex bs b s' h
    rcases Option.map_eq_some'.mp h with ⟨r, -, hr⟩
    cases hr
    rfl
  · intro bytes b s' h
    rcases Option.map_eq_some'.mp h with ⟨r, -, hr⟩
    cases hr
    rfl
  · cases hs : s.end_called <;> simp [destructorLogsError, hs]

/-- Witness for C7: a concrete `End` call sets the flag, and the destructor
diagnostic fires on a concrete never-finalized object. -/
theorem end_called_flag_discipline_witness :
    ((⟨[none], true⟩ : ObjState (List (Option Nat))).end_called = true) ∧
    (destructorLogsError (⟨[], false⟩ : ObjState (List (Option Nat))) =
      true ↔ (⟨[], false⟩ : ObjState (List (Option Nat))).end_called =
        false) :=
  ⟨(end_called_flag_discipline recWriter ⟨[], false⟩).1 true ⟨[none], true⟩
      rfl,
    (end_called_flag_discipline recWriter ⟨[], false⟩).2.2.2⟩

/-- Claim C8: `DirectExtentWriter::Init` performs no validation whatsoever:
for every prior state, descriptor, extent list (including the empty one) and
block size (including 0) it returns `true`, recording exactly `fd_`,
`block_size_` and `extents_` and touching nothing else. -/
theorem direct_init_never_fails (s : DirectState)
    (fd : List (Nat × List Nat)) (ex : List Extent) (bs : Nat) :
    directWriter.initOp s fd ex bs =
      some (true, ⟨fd, bs, s.extent_bytes_written, ex,
        s.next_extent_index⟩) := rfl

/-- Claim C9: the decorator's `Write` reduces the running counter modulo
`block_size_` after every successful forwarded write; if `Write` runs on a
freshly constructed decorator (before `Init`, so `block_size_ = 0`) and the
forwarded write succeeds, that reduction is a modulo by zero (undefined
behaviour, modelled as `none`), while after an `Init` with a non-zero block
size the operation is always defined. -/
theorem zeroPad_write_mod_zero {φ σ : Type} (w : ExtentWriterImpl φ σ)
    (u : ObjState σ) (bytes : List Nat) :
    (∀ c, w.writeOp u.core bytes = some (true, c) →
      (zeroPadWriter w).writeOp (zeroPadCtor u) bytes = none) ∧
    (∀ (s : ZeroPadState σ) r c, s.block_size ≠ 0 →
      w.writeOp s.underlying.core bytes = some (r, c) →
      (zeroPadWriter w).writeOp s bytes ≠ none) := by
  constructor
  · intro c h
    simp only [zeroPadWriter, zeroPadCtor]
    rw [h]
    simp [cppMod]
  · intro s r c hbs h
    rw [zeroPad_write_shape w s bytes hbs, h]
    cases r <;> simp

/-- Witness for C9: on a freshly constructed decorator over a concrete
always-succeeding writer, one successful forwarded write makes the modulo
step divide by zero. -/
theorem zeroPad_write_mod_zero_witness :
    (zeroPadWriter recWriter).writeOp (zeroPadCtor ⟨[], false⟩) [7] =
      none :=
  (zeroPad_write_mod_zero recWriter ⟨[], false⟩ [7]).1 [some 1] rfl

/-- Claim C10: whenever the decorator's finalize reaches its delegation step
(no padding needed, or the padding write succeeded), the wrapped writer's
full `End` runs, so the wrapped writer's `end_called_` flag is set in the
resulting state. -/
theorem zeroPad_end_marks_underlying {φ σ : Type}
    (w : ExtentWriterImpl φ σ) (s : ZeroPadState σ) (b : Bool)
    (s' : ZeroPadState σ)
    (hdel : s.bytes_written_mod_block_size = 0 ∨
      ∃ c, w.writeOp s.underlying.core
        (List.replicate (s.block_size - s.bytes_written_mod_block_size) 0)
          = some (true, c))
    (h : zeroPadEndImpl w s = some (b, s')) :
    s'.underlying.end_called = true := by
  unfold zeroPadEndImpl at h
  by_cases hm : s.bytes_written_mod_block_size = 0
  · rw [if_neg (by omega)] at h
    cases he : w.endImplOp s.underlying.core with
    | none => rw [he] at h; exact absurd h (by simp)
    | some r =>
      obtain ⟨b2, c2⟩ := r
      rw [he] at h
      simp only [Option.some.injEq, Prod.mk.injEq] at h
      rw [← h.2]
  · rcases hdel with hdel | ⟨c, hc⟩
    · exact absurd hdel hm
    · rw [if_pos hm, hc] at h
      dsimp only at h
      cases he : w.endImplOp c with
      | none => rw [he] at h; exact absurd h (by simp)
      | some r =>
        obtain ⟨b2, c2⟩ := r
        rw [he] at h
        simp only [Option.some.injEq, Prod.mk.injEq] at h
        rw [← h.2]

/-- Witness for C10: finalizing a concrete aligned decorator marks the
concrete wrapped writer as finalized. -/
theorem zeroPad_end_marks_underlying_witness :
    (⟨⟨[none], true⟩, 4096, 0⟩ :
      ZeroPadState (List (Option Nat))).underlying.end_called = true :=
  zeroPad_end_marks_underlying recWriter ⟨⟨[], false⟩, 4096, 0⟩ true
    ⟨⟨[none], true⟩, 4096, 0⟩ (Or.inl rfl) rfl

/-- Claim C5 (amended): driving any whole session through two stacked
Zero-Pad decorators over any wrapped writer is observationally equivalent to
driving it through one: the caller sees the same result of every call, and
the wrapped writer ends in the same object state — for every wrapped writer,
which in particular means the same calls reach it with the same arguments
and results. (The mechanism is that at finalize the outer decorator issues
any needed padding first, which brings the inner decorator's counter to
zero, so the inner decorator pads nothing.) -/
theorem zeroPad_stack_transparent {φ σ : Type} (w : ExtentWriterImpl φ σ)
    (u : ObjState σ) (fd : φ) (ex : List Extent) (bs : Nat)
    (calls : List (List Nat)) :
    (runSession (zeroPadWriter (zeroPadWriter w))
        ⟨zeroPadCtor ⟨zeroPadCtor u, false⟩, false⟩ fd ex bs calls).map
      (fun r => (r.1, r.2.core.underlying.core.underlying)) =
    (runSession (zeroPadWriter w) ⟨zeroPadCtor u, false⟩ fd ex bs
        calls).map (fun r => (r.1, r.2.core.underlying)) := by
  cases hi : w.initOp u.core fd ex bs with
  | none =>
    simp only [runSession, callInit, zeroPadWriter_initOp_def, zeroPadCtor,
      hi]
    rfl
  | some r0 =>
    obtain ⟨b0, c0⟩ := r0
    simp only [runSession, callInit, zeroPadWriter_initOp_def, zeroPadCtor,
      hi, Option.map_some']
    have hrel : ZPRel
        (⟨⟨⟨⟨c0, u.end_called⟩, bs, 0⟩, false⟩, bs, 0⟩ :
          ZeroPadState (ZeroPadState σ))
        (⟨⟨c0, u.end_called⟩, bs, 0⟩ : ZeroPadState σ) :=
      ⟨rfl, rfl, rfl, rfl, rfl, fun _ => rfl,
        fun h0 => Nat.pos_of_ne_zero h0⟩
    rcases ZPRel_runCalls w calls _ _ hrel with ⟨hd2, hs2⟩ |
      ⟨rs, d2, s2, hd2, hs2, h2⟩
    · rw [hd2, hs2]
      rfl
    · rw [hd2, hs2]
      simp only [callEnd, zeroPadWriter_endImplOp_def]
      rcases ZPRel_end w d2 s2 h2 with ⟨hd3, hs3⟩ |
        ⟨bE, d3, s3, hd3, hs3, h3⟩
      · rw [hd3, hs3]
        rfl
      · rw [hd3, hs3]
        simp only [Option.map_some']
        rw [h3]

/-- Counterexample to C5 as stated: its claimed mechanism is that the inner
decorator's output is already block-aligned when the outer decorator
finalizes, so the outer one pads nothing. Concretely — block size 4, one
7-byte write through the stacked decorators over a recording writer — at
the moment the outer decorator finalizes, the inner decorator's modulo
counter is 3 (its forwarded output is not block-aligned), the outer
decorator's own counter is 3 as well, and running the outer `EndImpl` makes
the wrapped writer receive an extra 1-byte padding write (trace entry
`some 1`) issued by the outer decorator's padding branch, which resets the
inner counter to 0 before the inner decorator finalizes. -/
theorem zeroPad_stack_outer_pads_cex :
    runCalls (zeroPadWriter (zeroPadWriter recWriter))
        ⟨⟨⟨⟨[], false⟩, 4, 0⟩, false⟩, 4, 0⟩ [[0, 0, 0, 0, 0, 0, 0]] =
      some ([true], ⟨⟨⟨⟨[some 7], false⟩, 4, 3⟩, false⟩, 4, 3⟩) ∧
    (⟨⟨⟨⟨[some 7], false⟩, 4, 3⟩, false⟩, 4, 3⟩ :
        ZeroPadState (ZeroPadState (List (Option Nat)))
      ).underlying.core.bytes_written_mod_block_size = 3 ∧
    zeroPadEndImpl (zeroPadWriter recWriter)
        ⟨⟨⟨⟨[some 7], false⟩, 4, 3⟩, false⟩, 4, 3⟩ =
      some (true,
        ⟨⟨⟨⟨[some 7, some 1, none], true⟩, 4, 0⟩, true⟩, 4, 3⟩) :=
  ⟨rfl, rfl, rfl⟩

end ExtentWriterModel
